import Mathlib

/-!
Verification of the confindent configuration parser/serializer.

The mature revision of the crate keeps its line tokenizer and indentation
classifier in `src/indent.rs` and `src/value.rs`, its entry types in
`src/line.rs` and `src/error.rs`; those are embedded here faithfully.
The document-level tree assembler of that revision (its `lib.rs`) is not
among the source files; where needed it is modelled from the
specification, and each such definition is marked. Two superseded
revisions of the document parser (`lib.rs` with a `Vec` of sections and
`confindent.rs` with a `HashMap`) are in the sources; the `Vec` revision
is embedded in the `Old` namespace.

Strings are modelled as `List Char`, matching Rust `&str` iterated by
`char`. All definitions are computable and use structural recursion, so
closed statements evaluate by `rfl`/`decide`.
-/

/-- Unicode white space, as Rust `char::is_whitespace` (the White_Space
property). Used by `str::trim`, `str::trim_start` and
`str::split(char::is_whitespace)`. -/
def isRustWs (c : Char) : Bool :=
  c.toNat = 0x09 || c.toNat = 0x0A || c.toNat = 0x0B || c.toNat = 0x0C ||
  c.toNat = 0x0D || c.toNat = 0x20 || c.toNat = 0x85 || c.toNat = 0xA0 ||
  c.toNat = 0x1680 || (0x2000 ≤ c.toNat && c.toNat ≤ 0x200A) ||
  c.toNat = 0x2028 || c.toNat = 0x2029 || c.toNat = 0x202F ||
  c.toNat = 0x205F || c.toNat = 0x3000

/-- ASCII white space, as Rust `char::is_ascii_whitespace`:
space, tab, newline, form feed, carriage return. -/
def isAsciiWs (c : Char) : Bool :=
  c = ' ' || c = '\t' || c = '\n' || c = '\x0C' || c = '\r'

/-- error.rs: `ParseErrorKind`. -/
inductive ParseErrorKind where
  | StartedIndented
  | MixedIndent
  | TabsWithSpaces
  | SpacesWithTabs
  | FileReadError
deriving DecidableEq, Repr

/-- error.rs: `ParseError`, a kind tagged with the 1-based line number. -/
structure ParseError where
  line : Nat
  kind : ParseErrorKind
deriving DecidableEq, Repr

/-- indent.rs: the indentation token. `Tabs`/`Spaces` carry the character
count and the delta recorded relative to a reference indent. -/
inductive Indent where
  | Empty
  | Tabs (count : Nat) (delta : Nat)
  | Spaces (count : Nat) (delta : Nat)
deriving DecidableEq, Repr

namespace Indent

/-- indent.rs `Indent::delta_from`: fill in this indent's delta using
`other` as a reference. The Rust method mutates `self` and returns
`Result<(), ParseErrorKind>`; modelled as returning the updated `self`. -/
def delta_from (self other : Indent) : Except ParseErrorKind Indent :=
  match self with
  | .Empty =>
    match other with
    | .Empty => .ok .Empty
    | _ => .error .StartedIndented
  | .Tabs count _ =>
    match other with
    | .Empty => .ok (.Tabs count count)
    | .Tabs ocount _ => .ok (.Tabs count ((ocount : Int) - (count : Int)).natAbs)
    | .Spaces _ _ => .error .SpacesWithTabs
  | .Spaces count _ =>
    match other with
    | .Empty => .ok (.Spaces count count)
    | .Tabs _ _ => .error .TabsWithSpaces
    | .Spaces ocount _ => .ok (.Spaces count ((ocount : Int) - (count : Int)).natAbs)

/-- Outcome of `Indent::from_str`: a value, a recoverable parse error, or
a Rust panic (the `panic!`/`unreachable!` arms for non-tab/space input). -/
inductive FromStrOut where
  | ok (i : Indent)
  | err (e : ParseErrorKind)
  | panicked
deriving DecidableEq, Repr

/-- indent.rs `FromStr` loop body: count further characters of the run,
rejecting a mix of tabs and spaces. Characters other than tab and space
hit `unreachable!`. -/
def fromStrLoop : Indent → List Char → FromStrOut
  | ind, [] => .ok ind
  | .Tabs c d, '\t' :: rest => fromStrLoop (.Tabs (c + 1) d) rest
  | .Tabs _ _, ' ' :: _ => .err .MixedIndent
  | .Spaces c d, ' ' :: rest => fromStrLoop (.Spaces (c + 1) d) rest
  | .Spaces _ _, '\t' :: _ => .err .MixedIndent
  | _, _ :: _ => .panicked

/-- indent.rs `impl FromStr for Indent`: empty input is `Empty`; input
with any non-whitespace character panics; otherwise the run is counted
and `delta_from(&Indent::Empty)` fills the delta with the count. -/
def from_str (s : List Char) : FromStrOut :=
  if s = [] then .ok .Empty
  else if s.any (fun c => !isRustWs c) then .panicked
  else
    match s with
    | ' ' :: rest =>
      match fromStrLoop (.Spaces 1 1) rest with
      | .ok i =>
        match i.delta_from .Empty with
        | .ok i' => .ok i'
        | .error e => .err e
      | r => r
    | '\t' :: rest =>
      match fromStrLoop (.Tabs 1 1) rest with
      | .ok i =>
        match i.delta_from .Empty with
        | .ok i' => .ok i'
        | .error e => .err e
      | r => r
    | _ => .panicked

/-- indent.rs `impl fmt::Display for Indent`: the indentation characters. -/
def toText : Indent → List Char
  | .Empty => []
  | .Tabs count _ => List.replicate count '\t'
  | .Spaces count _ => List.replicate count ' '

/-- The character count of an indentation token. -/
def countOf : Indent → Nat
  | .Empty => 0
  | .Tabs count _ => count
  | .Spaces count _ => count

end Indent

mutual
/-- value.rs: a parsed line of a configuration file: indentation token,
key, optional value, ordered children. -/
inductive Value where
  | mk (indent : Indent) (key : List Char) (value : Option (List Char))
       (children : Lines)

/-- line.rs: one entry — a key/value node, a comment, or a blank line
(kept verbatim for round-tripping). -/
inductive Line where
  | value (v : Value)
  | comment (indent : Indent) (comment : List Char)
  | blank (text : List Char)

/-- An ordered list of entries (the child list of a node or document). -/
inductive Lines where
  | nil
  | cons (head : Line) (tail : Lines)
end

namespace Lines

/-- Concatenation of entry lists. -/
def append : Lines → Lines → Lines
  | .nil, ys => ys
  | .cons x xs, ys => .cons x (append xs ys)

/-- Append a single entry at the end. -/
def push (xs : Lines) (l : Line) : Lines :=
  xs.append (.cons l .nil)

end Lines

/-- The text of a node's own line: indentation, key, a single space and
the value only when a value is present, then a newline. -/
def headText (ind : Indent) (key : List Char) (val : Option (List Char)) :
    List Char :=
  ind.toText ++ key ++ (match val with | none => [] | some v => ' ' :: v) ++ ['\n']

mutual
/-- value.rs `impl fmt::Display for Value`: the node's own line, then
every child in stored order. -/
def Value.render : Value → List Char
  | .mk ind key val children => headText ind key val ++ Lines.render children

/-- line.rs `impl fmt::Display for Line`: blanks verbatim plus a newline,
comments as `<indent>#<text>` plus a newline, nodes via `Value`. -/
def Line.render : Line → List Char
  | .value v => Value.render v
  | .comment ind c => ind.toText ++ '#' :: (c ++ ['\n'])
  | .blank t => t ++ ['\n']

/-- Serialization of a list of entries, in order. -/
def Lines.render : Lines → List Char
  | .nil => []
  | .cons l rest => Line.render l ++ Lines.render rest
end

namespace Value

/-- Field accessor for the indentation token of a node. -/
def indentOf : Value → Indent
  | .mk ind _ _ _ => ind

/-- Field accessor for the key of a node. -/
def keyOf : Value → List Char
  | .mk _ key _ _ => key

/-- Field accessor for the value of a node. -/
def valueOf : Value → Option (List Char)
  | .mk _ _ val _ => val

/-- Field accessor for the children of a node. -/
def childrenOf : Value → Lines
  | .mk _ _ _ children => children

/-- value.rs `Value::whitespace_end_index`: index of the first
non-ASCII-whitespace character; 0 if the iterator is exhausted first
(the `_ => return 0` arm). -/
def whitespace_end_index (s : List Char) : Nat :=
  go s 0
where
  go : List Char → Nat → Nat
    | [], _ => 0
    | c :: rest, i => if isAsciiWs c then go rest (i + 1) else i

/-- Rust `str::split_once(' ')`: split at the first space, which is
dropped; `none` when there is no space. -/
def splitOnce (sep : Char) : List Char → Option (List Char × List Char)
  | [] => none
  | c :: rest =>
    if c = sep then some ([], rest)
    else
      match splitOnce sep rest with
      | none => none
      | some (a, b) => some (c :: a, b)

/-- value.rs `Value::from_indent_str`: split the remainder of a line at
the first space into key and value; the value is `None` when there is no
space or the text after the space is empty. -/
def from_indent_str (indent : Indent) (line : List Char) : Value :=
  match splitOnce ' ' line with
  | none => .mk indent line none .nil
  | some (key, value) =>
    if value = [] then .mk indent key none .nil
    else .mk indent key (some value) .nil

end Value

/-- One tokenized line. -/
inductive Tok where
  | blank (text : List Char)
  | comment (indent : Indent) (text : List Char)
  | node (v : Value)

/-- Outcome of tokenizing one line: a token, a parse error, or a panic
propagated from the indent classifier. -/
inductive TokResult where
  | ok (t : Tok)
  | err (e : ParseErrorKind)
  | panicked

/-- Modelled from the spec: the Line Tokenizer of the mature revision's
`lib.rs`, which is not among the source files. A line that is empty or
entirely whitespace is `Blank` kept verbatim; otherwise the
ASCII-whitespace run is split off with `Value::whitespace_end_index`
(value.rs) and classified by `Indent::from_str` (indent.rs), a remainder
beginning with `#` is a `Comment` carrying the computed indent, and any
other remainder is a key/value node via `Value::from_indent_str`
(value.rs). -/
def tokenizeLine (l : List Char) : TokResult :=
  if l.all isRustWs then .ok (.blank l)
  else
    let n := Value.whitespace_end_index l
    match Indent.from_str (l.take n) with
    | .panicked => .panicked
    | .err e => .err e
    | .ok ind =>
      match l.drop n with
      | '#' :: text => .ok (.comment ind text)
      | rest => .ok (.node (Value.from_indent_str ind rest))

/-- The stand-alone serialization of one token (a node rendered with its
children, which are empty at tokenization time). -/
def tokRender : Tok → List Char
  | .blank t => t ++ ['\n']
  | .comment ind c => ind.toText ++ '#' :: (c ++ ['\n'])
  | .node v => v.render

/-- Whether a line re-serializes to itself (with its newline). This
fails for a line whose remainder ends in a single trailing space after
the key — `from_indent_str` records no value and the space is lost. -/
def lineRoundtrips (l : List Char) : Bool :=
  match tokenizeLine l with
  | .ok t => tokRender t = l ++ ['\n']
  | _ => false

/-- Rust `str::split_inclusive('\n')`: pieces keep their `'\n'`; the
empty string has no pieces. -/
def splitInclusiveNl : List Char → List (List Char)
  | [] => []
  | c :: rest =>
    if c = '\n' then ['\n'] :: splitInclusiveNl rest
    else
      match splitInclusiveNl rest with
      | [] => [[c]]
      | p :: ps => (c :: p) :: ps

/-- The per-piece map of Rust `str::lines`: strip one trailing `'\n'`,
and after it one trailing `'\r'`; without a newline nothing is
stripped. -/
def stripLineEnd (l : List Char) : List Char :=
  match l.reverse with
  | '\n' :: '\r' :: rest => rest.reverse
  | '\n' :: rest => rest.reverse
  | _ => l

/-- Rust `str::lines`. -/
def linesOf (s : List Char) : List (List Char) :=
  (splitInclusiveNl s).map stripLineEnd

/-- Re-join lines, terminating every line with `'\n'`. -/
def linesJoin (ls : List (List Char)) : List Char :=
  ls.foldr (fun l acc => l ++ '\n' :: acc) []

/-- An open ancestor on the assembler's path: a node still accepting
children. -/
structure Frame where
  indent : Indent
  key : List Char
  value : Option (List Char)
  children : Lines

/-- Close an open node into a finished `Value`. -/
def Frame.toValue (f : Frame) : Value :=
  .mk f.indent f.key f.value f.children

/-- Open a freshly tokenized node as a frame. -/
def Frame.ofValue : Value → Frame
  | .mk ind key val children => ⟨ind, key, val, children⟩

/-- The assembler state: finished top-level entries, and the stack of
currently-open ancestors, deepest first (the bottom entry is the open
top-level node). -/
structure PState where
  doc : Lines
  stack : List Frame

/-- Close the deepest open node: it becomes the last child of the next
frame up, or a finished top-level entry when it was the bottom frame. -/
def closeHead (doc : Lines) (f : Frame) (rest : List Frame) :
    Lines × List Frame :=
  match rest with
  | [] => (doc.push (.value f.toValue), [])
  | g :: gs => (doc, { g with children := g.children.push (.value f.toValue) } :: gs)

/-- Close the `n` deepest open nodes, one at a time. -/
def closeN : Nat → Lines → List Frame → Lines × List Frame
  | 0, doc, stack => (doc, stack)
  | _ + 1, doc, [] => (doc, [])
  | n + 1, doc, f :: rest =>
    let p := closeHead doc f rest
    closeN n p.1 p.2

/-- Modelled from the spec (§4.3 step 3), the walk of the missing mature
`lib.rs`: starting at the deepest open ancestor, compare the new token
against each open node's token with `Indent::delta_from` (indent.rs),
which rejects a tabs/spaces style conflict. A deeper token (or an open
top-level node, token `None`) makes the new line that node's child
(close 0 frames), an equal token makes it a sibling (close that node),
and a shallower token moves one level up (closing as it goes). The
result is how many open nodes to close before opening the new one. -/
def findAttach : List Frame → Indent → Except ParseErrorKind Nat
  | [], _ => .ok 0
  | f :: rest, ind =>
    match ind.delta_from f.indent with
    | .error e => .error e
    | .ok _ =>
      match f.indent with
      | .Empty => .ok 0
      | _ =>
        if f.indent.countOf < ind.countOf then .ok 0
        else if f.indent.countOf = ind.countOf then .ok 1
        else
          match findAttach rest ind with
          | .error e => .error e
          | .ok n => .ok (n + 1)

/-- Modelled from the spec (§4.3 steps 1-2): a token `None` line closes
every open ancestor and opens a new top-level entry; an indented line
with no open ancestor is `StartedIndented`; otherwise the walk decides
how many open ancestors to close, and the new node is opened there. -/
def attachNode (st : PState) (v : Value) : Except ParseErrorKind PState :=
  if v.indentOf = .Empty then
    .ok ⟨(closeN st.stack.length st.doc st.stack).1, [Frame.ofValue v]⟩
  else
    match st.stack with
    | [] => .error .StartedIndented
    | f :: rest =>
      match findAttach (f :: rest) v.indentOf with
      | .error e => .error e
      | .ok n =>
        let p := closeN n st.doc (f :: rest)
        .ok ⟨p.1, Frame.ofValue v :: p.2⟩

/-- Modelled from the spec (§4.3): blank lines and comments do not take
part in depth bookkeeping; they are appended at the deepest currently
open position — as a child of the most recently attached node, or at top
level when nothing is open. -/
def pushTrivia (st : PState) (l : Line) : PState :=
  match st.stack with
  | [] => { st with doc := st.doc.push l }
  | f :: rest => { st with stack := { f with children := f.children.push l } :: rest }

/-- The mature document type: an ordered sequence of top-level entries.
Modelled from the spec; the mature `lib.rs` holding it is not among the
source files. -/
structure Confindent where
  children : Lines

/-- Outcome of parsing a document: a document, a positioned parse error,
or a panic propagated from the indent classifier. -/
inductive ParseOut where
  | ok (d : Confindent)
  | err (e : ParseError)
  | panicked

namespace Confindent

/-- Modelled from the spec: the line loop of the missing mature
`lib.rs`. Lines are tokenized and attached in order; the first failure
aborts the parse, tagged with the 1-based line number; at the end every
open ancestor is closed. -/
def parseLines : Nat → PState → List (List Char) → ParseOut
  | _, st, [] => .ok ⟨(closeN st.stack.length st.doc st.stack).1⟩
  | n, st, l :: rest =>
    match tokenizeLine l with
    | .panicked => .panicked
    | .err e => .err ⟨n, e⟩
    | .ok (.blank t) => parseLines (n + 1) (pushTrivia st (.blank t)) rest
    | .ok (.comment ind c) => parseLines (n + 1) (pushTrivia st (.comment ind c)) rest
    | .ok (.node v) =>
      match attachNode st v with
      | .error e => .err ⟨n, e⟩
      | .ok st' => parseLines (n + 1) st' rest

/-- Modelled from the spec: `Confindent::from_str` of the mature
revision — split into lines with `str::lines` and assemble. -/
def from_str (s : List Char) : ParseOut :=
  parseLines 1 ⟨.nil, []⟩ (linesOf s)

/-- Serialization of a document: every top-level entry in order,
children immediately after their parent. -/
def render (d : Confindent) : List Char :=
  d.children.render

end Confindent

/-!
The superseded `Vec`-based revision (the `lib.rs` among the sources, with
`Confindent`, `ConfSection` and `ConfItem` in one file), embedded under
the `Old` namespace.
-/

namespace Old

/-- lib.rs (old revision): `ConfItem` — an empty or textual value. -/
inductive ConfItem where
  | Empty
  | Text (s : List Char)
deriving DecidableEq, Repr

/-- lib.rs (old revision): `ConfItem::parse` always yields `Text`. -/
def ConfItem.parse (s : List Char) : ConfItem :=
  .Text s

/-- lib.rs (old revision): `ConfSection` — key, value, indent level and
children. `indent_level` is a Rust `u8`; release-mode wrapping is
modelled by reducing the tab/double-space count modulo 256. -/
inductive ConfSection where
  | mk (key : List Char) (value : ConfItem) (indent_level : Nat)
       (children : List ConfSection)

namespace ConfSection

/-- Field accessor for the key. -/
def keyOf : ConfSection → List Char
  | .mk key _ _ _ => key

/-- Field accessor for the value. -/
def valueOf : ConfSection → ConfItem
  | .mk _ value _ _ => value

/-- Field accessor for the indent level. -/
def levelOf : ConfSection → Nat
  | .mk _ _ level _ => level

/-- Field accessor for the children. -/
def childrenOf : ConfSection → List ConfSection
  | .mk _ _ _ children => children

end ConfSection

/-- Rust `str::split` with a `char::is_whitespace` pattern: pieces
between whitespace characters, empty pieces included. -/
def splitOnPred (p : Char → Bool) : List Char → List (List Char)
  | [] => [[]]
  | c :: rest =>
    let r := splitOnPred p rest
    if p c then [] :: r
    else
      match r with
      | [] => [[c]]
      | x :: xs => (c :: x) :: xs

/-- The `while workable.starts_with('\t') || workable.starts_with("  ")`
loop of old `ConfSection::parse`: count leading tabs or space pairs
(a tab checked first), returning the count and the rest of the line. -/
def stripIndent : List Char → Nat × List Char
  | '\t' :: rest =>
    let p := stripIndent rest
    (p.1 + 1, p.2)
  | ' ' :: ' ' :: rest =>
    let p := stripIndent rest
    (p.1 + 1, p.2)
  | other => (0, other)

/-- lib.rs (old revision) `ConfSection::parse`: `None` for a line that is
empty or whitespace-only; otherwise count the indent, split the rest on
whitespace, take piece 0 as the key and piece 1 (when present) as the
value. Pieces past the first two are dropped. The `workable.get(offset..)`
fallback cannot fail for these offsets and is not modelled. -/
def ConfSection.parse (s : List Char) : Option ConfSection :=
  if s.isEmpty || (s.dropWhile isRustWs).isEmpty then none
  else
    let p := stripIndent s
    let split := splitOnPred isRustWs p.2
    match split.head? with
    | none => none
    | some key =>
      let value := match split.get? 1 with
        | some v => ConfItem.parse v
        | none => ConfItem.Empty
      some (.mk key value (p.1 % 256) [])

/-- Search the section list from the end for the first section one level
shallower than `cs`, and push `cs` onto its children; `none` when no such
section exists. Models the reversed `iter_mut` loop of old
`Confindent::add_section`. -/
def addToLast (secs : List ConfSection) (cs : ConfSection) :
    Option (List ConfSection) :=
  match secs with
  | [] => none
  | s :: rest =>
    match addToLast rest cs with
    | some rest' => some (s :: rest')
    | none =>
      if s.levelOf = cs.levelOf - 1 then
        some (.mk s.keyOf s.valueOf s.levelOf (s.childrenOf ++ [cs]) :: rest)
      else none

/-- lib.rs (old revision): the document is a `Vec` of sections. -/
structure Confindent where
  sections : List ConfSection

/-- lib.rs (old revision) `Confindent::add_section`: a section at level 0
(or into an empty document) is pushed at top level; otherwise the
top-level list is searched from the end for a section one level
shallower, which receives it as a child; with no match it is pushed at
top level. -/
def Confindent.add_section (c : Confindent) (cs : ConfSection) : Confindent :=
  if c.sections.isEmpty || cs.levelOf = 0 then ⟨c.sections ++ [cs]⟩
  else
    match addToLast c.sections cs with
    | some secs => ⟨secs⟩
    | none => ⟨c.sections ++ [cs]⟩

/-- The declared error type of old `Confindent::from_str` is
`std::string::ParseError`, an uninhabited enum. -/
inductive StdStringParseError where
deriving DecidableEq

/-- lib.rs (old revision) `impl FromStr for Confindent`: an empty or
whitespace-only input is the empty document; otherwise every line is
parsed, lines parsing to `None` are skipped, and the rest are added in
order. No code path constructs an error. -/
def Confindent.from_str (s : List Char) :
    Except StdStringParseError Confindent :=
  if s.isEmpty || (s.dropWhile isRustWs).isEmpty then .ok ⟨[]⟩
  else
    .ok ((linesOf s).foldl
      (fun c l =>
        match ConfSection.parse l with
        | some cs => c.add_section cs
        | none => c)
      ⟨[]⟩)

/-- lib.rs (old revision) `Confindent::get_sections_by_name`: the
sections with this key, in stored order; `None` when there are none. -/
def Confindent.get_sections_by_name (c : Confindent) (key : List Char) :
    Option (List ConfSection) :=
  let ret := c.sections.filter (fun s => s.keyOf = key)
  if ret.isEmpty then none else some ret

end Old

/-- The text of an open node's own line. -/
def Frame.headerOf (f : Frame) : List Char :=
  headText f.indent f.key f.value

/-- Serialization of the open-ancestor stack (deepest first): each open
node's line followed by its children so far, nested at the end of the
node above it. -/
def spineRender : List Frame → List Char
  | [] => []
  | f :: rest => spineRender rest ++ f.headerOf ++ f.children.render

/-- Serialization of the whole assembler state: the finished entries,
then the open spine. -/
def stateRender (st : PState) : List Char :=
  st.doc.render ++ spineRender st.stack

/-- A line the tokenizer classifies as blank or as a comment. -/
def blankOrCommentTok (l : List Char) : Prop :=
  (∃ t, tokenizeLine l = .ok (.blank t)) ∨
  ∃ ind c, tokenizeLine l = .ok (.comment ind c)

/-!
Theorems. Small helper lemmas first, then the claim theorems with their
witnesses and counterexamples.
-/

theorem splitOnce_of_not_mem {sep : Char} : ∀ {l : List Char}, sep ∉ l →
    Value.splitOnce sep l = none
  | [], _ => rfl
  | c :: rest, h => by
    have hc : ¬c = sep := fun hc => h (hc ▸ List.mem_cons_self c rest)
    have hr : sep ∉ rest := fun hr => h (List.mem_cons_of_mem c hr)
    simp [Value.splitOnce, hc, splitOnce_of_not_mem hr]

theorem splitOnce_append {sep : Char} : ∀ {a : List Char} (b : List Char),
    sep ∉ a → Value.splitOnce sep (a ++ sep :: b) = some (a, b)
  | [], b, _ => by simp [Value.splitOnce]
  | c :: a', b, h => by
    have hc : ¬c = sep := fun hc => h (hc ▸ List.mem_cons_self c a')
    have ha : sep ∉ a' := fun ha => h (List.mem_cons_of_mem c ha)
    simp [Value.splitOnce, hc, splitOnce_append b ha]

/-- Claim C7: for every non-blank line, after removing the
leading-whitespace run, `Value::from_indent_str` splits the remainder at
the first space character into key and value; the value is `None`
exactly when there is no space or the text after the first space is
empty, and otherwise the value is the entire remainder of the line after
that first space. -/
theorem c7_key_value_split (ind : Indent) :
    (∀ line : List Char, ' ' ∉ line →
      Value.from_indent_str ind line = .mk ind line none .nil) ∧
    (∀ key : List Char, ' ' ∉ key →
      Value.from_indent_str ind (key ++ [' ']) = .mk ind key none .nil) ∧
    (∀ key v : List Char, ' ' ∉ key → v ≠ [] →
      Value.from_indent_str ind (key ++ ' ' :: v) = .mk ind key (some v) .nil) := by
  refine ⟨fun line h => ?_, fun key h => ?_, fun key v hk hv => ?_⟩
  · simp [Value.from_indent_str, splitOnce_of_not_mem h]
  · simp [Value.from_indent_str, splitOnce_append ([] : List Char) h]
  · simp [Value.from_indent_str, splitOnce_append v hk, hv]

/-- Witness for C7 at concrete lines: no space, a single trailing space,
and a space with a non-empty tail. -/
theorem c7_witness :
    Value.from_indent_str .Empty ['A', 'B'] = .mk .Empty ['A', 'B'] none .nil ∧
    Value.from_indent_str .Empty ['A', ' '] = .mk .Empty ['A'] none .nil ∧
    Value.from_indent_str .Empty ['A', ' ', '1'] = .mk .Empty ['A'] (some ['1']) .nil :=
  ⟨(c7_key_value_split .Empty).1 ['A', 'B'] (by decide),
   (c7_key_value_split .Empty).2.1 ['A'] (by decide),
   (c7_key_value_split .Empty).2.2 ['A'] ['1'] (by decide) (by decide)⟩

/-- Claim C6: when an indentation token's style conflicts with the style
of the reference token in `Indent::delta_from`, the operation fails with
the kind selected by which side is tabs and which is spaces: a `Tabs`
token against a `Spaces` reference fails with `SpacesWithTabs`, and a
`Spaces` token against a `Tabs` reference fails with `TabsWithSpaces`. -/
theorem c6_style_conflict (c d c' d' : Nat) :
    Indent.delta_from (.Tabs c d) (.Spaces c' d') = .error .SpacesWithTabs ∧
    Indent.delta_from (.Spaces c d) (.Tabs c' d') = .error .TabsWithSpaces :=
  ⟨rfl, rfl⟩

/-- Claim C8: serializing a node emits its indentation, its key, then a
single space and the value only when a value is present and nothing
after the key when it is absent, then a newline, then the children; in
particular a node with key `A` and no value serializes to `"A\n"` with
no trailing space. -/
theorem c8_node_serialization (ind : Indent) (key : List Char) (children : Lines) :
    (∀ v, Value.render (.mk ind key (some v) children) =
      ind.toText ++ key ++ ' ' :: v ++ '\n' :: children.render) ∧
    (Value.render (.mk ind key none children) =
      ind.toText ++ key ++ '\n' :: children.render) ∧
    Value.render (.mk .Empty ['A'] none .nil) = ['A', '\n'] := by
  refine ⟨fun v => ?_, ?_, rfl⟩ <;> simp [Value.render, headText]

/-- Claim C5: for every non-blank line whose remainder after the
leading-whitespace run begins with `#`, the tokenizer classifies the
line as a `Comment` carrying the already-computed indentation token and
the comment text, and not as a key/value node. -/
theorem c5_comment_classification (l : List Char) (h1 : l.all isRustWs = false)
    (ind : Indent) (text : List Char)
    (h2 : Indent.from_str (l.take (Value.whitespace_end_index l)) = .ok ind)
    (h3 : l.drop (Value.whitespace_end_index l) = '#' :: text) :
    tokenizeLine l = .ok (.comment ind text) ∧
    ∀ v, tokenizeLine l ≠ .ok (.node v) := by
  have : tokenizeLine l = .ok (.comment ind text) := by
    simp [tokenizeLine, h1, h2, h3]
  exact ⟨this, fun v hv => by simp [this] at hv⟩

/-- Witness for C5 at the line `"\t#c"`. -/
theorem c5_witness :
    tokenizeLine ['\t', '#', 'c'] = .ok (.comment (.Tabs 1 1) ['c']) ∧
    ∀ v, tokenizeLine ['\t', '#', 'c'] ≠ .ok (.node v) :=
  c5_comment_classification ['\t', '#', 'c'] (by decide) (.Tabs 1 1) ['c'] rfl rfl

theorem fromStrLoop_tabs : ∀ (rest : List Char) (c d : Nat), (∀ x ∈ rest, x = '\t') →
    Indent.fromStrLoop (.Tabs c d) rest = .ok (.Tabs (c + rest.length) d)
  | [], c, d, _ => by simp [Indent.fromStrLoop]
  | x :: xs, c, d, h => by
    have hx : x = '\t' := h x (List.mem_cons_self x xs)
    subst hx
    have ih := fromStrLoop_tabs xs (c + 1) d (fun y hy => h y (List.mem_cons_of_mem _ hy))
    simp only [Indent.fromStrLoop, ih, List.length_cons]
    have harith : c + 1 + xs.length = c + (xs.length + 1) := by omega
    rw [harith]

theorem fromStrLoop_spaces : ∀ (rest : List Char) (c d : Nat), (∀ x ∈ rest, x = ' ') →
    Indent.fromStrLoop (.Spaces c d) rest = .ok (.Spaces (c + rest.length) d)
  | [], c, d, _ => by simp [Indent.fromStrLoop]
  | x :: xs, c, d, h => by
    have hx : x = ' ' := h x (List.mem_cons_self x xs)
    subst hx
    have ih := fromStrLoop_spaces xs (c + 1) d (fun y hy => h y (List.mem_cons_of_mem _ hy))
    simp only [Indent.fromStrLoop, ih, List.length_cons]
    have harith : c + 1 + xs.length = c + (xs.length + 1) := by omega
    rw [harith]

theorem fromStrLoop_tabs_mixed : ∀ (rest : List Char) (c d : Nat),
    (∀ x ∈ rest, x = '\t' ∨ x = ' ') → ' ' ∈ rest →
    Indent.fromStrLoop (.Tabs c d) rest = .err .MixedIndent
  | [], _, _, _, hm => absurd hm (List.not_mem_nil _)
  | x :: xs, c, d, h, hm => by
    rcases h x (List.mem_cons_self x xs) with hx | hx
    · subst hx
      have hmem : ' ' ∈ xs := by
        rcases List.mem_cons.1 hm with heq | hin
        · exact absurd heq (by decide)
        · exact hin
      have ih := fromStrLoop_tabs_mixed xs (c + 1) d
        (fun y hy => h y (List.mem_cons_of_mem _ hy)) hmem
      simp [Indent.fromStrLoop, ih]
    · subst hx
      simp [Indent.fromStrLoop]

theorem fromStrLoop_spaces_mixed : ∀ (rest : List Char) (c d : Nat),
    (∀ x ∈ rest, x = '\t' ∨ x = ' ') → '\t' ∈ rest →
    Indent.fromStrLoop (.Spaces c d) rest = .err .MixedIndent
  | [], _, _, _, hm => absurd hm (List.not_mem_nil _)
  | x :: xs, c, d, h, hm => by
    rcases h x (List.mem_cons_self x xs) with hx | hx
    · subst hx
      simp [Indent.fromStrLoop]
    · subst hx
      have hmem : '\t' ∈ xs := by
        rcases List.mem_cons.1 hm with heq | hin
        · exact absurd heq (by decide)
        · exact hin
      have ih := fromStrLoop_spaces_mixed xs (c + 1) d
        (fun y hy => h y (List.mem_cons_of_mem _ hy)) hmem
      simp [Indent.fromStrLoop, ih]

/-- Claim C3: the indent classifier `Indent::from_str`, on a string of
tabs and spaces, returns `Empty` for the empty string, `Tabs(n)` for a
string of `n` tabs, `Spaces(n)` for a string of `n` spaces, and fails
with `MixedIndent` for any string containing both a tab and a space. -/
theorem c3_indent_classifier (s : List Char) (hws : ∀ c ∈ s, c = '\t' ∨ c = ' ') :
    (s = [] → Indent.from_str s = .ok .Empty) ∧
    (s ≠ [] → (∀ c ∈ s, c = '\t') → Indent.from_str s = .ok (.Tabs s.length s.length)) ∧
    (s ≠ [] → (∀ c ∈ s, c = ' ') → Indent.from_str s = .ok (.Spaces s.length s.length)) ∧
    ('\t' ∈ s → ' ' ∈ s → Indent.from_str s = .err .MixedIndent) := by
  have hany : s.any (fun c => !isRustWs c) = false := by
    simp only [List.any_eq_false, Bool.not_eq_true']
    intro x hx
    rcases hws x hx with h | h <;> subst h <;> decide
  refine ⟨fun h => by subst h; rfl, fun hne hall => ?_, fun hne hall => ?_,
    fun ht hsp => ?_⟩
  · cases s with
    | nil => exact absurd rfl hne
    | cons c rest =>
      have hc : c = '\t' := hall c (List.mem_cons_self c rest)
      subst hc
      have hloop := fromStrLoop_tabs rest 1 1
        (fun y hy => hall y (List.mem_cons_of_mem _ hy))
      simp [Indent.from_str, hany, hloop, Indent.delta_from, Nat.add_comm]
  · cases s with
    | nil => exact absurd rfl hne
    | cons c rest =>
      have hc : c = ' ' := hall c (List.mem_cons_self c rest)
      subst hc
      have hloop := fromStrLoop_spaces rest 1 1
        (fun y hy => hall y (List.mem_cons_of_mem _ hy))
      simp [Indent.from_str, hany, hloop, Indent.delta_from, Nat.add_comm]
  · cases s with
    | nil => exact absurd ht (List.not_mem_nil _)
    | cons c rest =>
      have hsub : ∀ y ∈ rest, y = '\t' ∨ y = ' ' :=
        fun y hy => hws y (List.mem_cons_of_mem _ hy)
      rcases hws c (List.mem_cons_self c rest) with hc | hc
      · subst hc
        have hmem : ' ' ∈ rest := by
          rcases List.mem_cons.1 hsp with heq | hin
          · exact absurd heq (by decide)
          · exact hin
        have hloop := fromStrLoop_tabs_mixed rest 1 1 hsub hmem
        simp [Indent.from_str, hany, hloop]
      · subst hc
        have hmem : '\t' ∈ rest := by
          rcases List.mem_cons.1 ht with heq | hin
          · exact absurd heq (by decide)
          · exact hin
        have hloop := fromStrLoop_spaces_mixed rest 1 1 hsub hmem
        simp [Indent.from_str, hany, hloop]

/-- Witness for C3 at concrete runs: two tabs, a tab then a space, the
empty run, and one space. -/
theorem c3_witness :
    Indent.from_str ['\t', '\t'] = .ok (.Tabs 2 2) ∧
    Indent.from_str ['\t', ' '] = .err .MixedIndent ∧
    Indent.from_str [] = .ok .Empty ∧
    Indent.from_str [' '] = .ok (.Spaces 1 1) :=
  ⟨(c3_indent_classifier ['\t', '\t'] (by decide)).2.1 (by decide) (by decide),
   (c3_indent_classifier ['\t', ' '] (by decide)).2.2.2 (by decide) (by decide),
   (c3_indent_classifier [] (by decide)).1 rfl,
   (c3_indent_classifier [' '] (by decide)).2.2.1 (by decide) (by decide)⟩

/-- Claim C10: for every input string, the old revision's
`Confindent::from_str` returns `Ok` — its declared error type
`std::string::ParseError` is uninhabited and no code path fails — and
blank or whitespace-only lines are skipped (`ConfSection::parse` yields
`None` for them) rather than aborting the parse. -/
theorem c10_parse_never_fails :
    (∀ s : List Char, ∃ d, Old.Confindent.from_str s = .ok d) ∧
    (∀ l : List Char, l.all isRustWs = true → Old.ConfSection.parse l = none) := by
  constructor
  · intro s
    unfold Old.Confindent.from_str
    split
    · exact ⟨_, rfl⟩
    · exact ⟨_, rfl⟩
  · intro l h
    have hdrop : l.dropWhile isRustWs = [] := by
      rw [List.dropWhile_eq_nil_iff]
      intro x hx
      exact List.all_eq_true.1 h x hx
    simp [Old.ConfSection.parse, hdrop]

/-- Witness for C10: an indented first line and a line mixing a space
and a tab both parse to `Ok`, and a whitespace-only line is skipped. -/
theorem c10_witness :
    (∃ d, Old.Confindent.from_str "\tA 1".data = .ok d) ∧
    (∃ d, Old.Confindent.from_str "A 1\n \tB 2".data = .ok d) ∧
    Old.ConfSection.parse [' ', '\t'] = none :=
  ⟨c10_parse_never_fails.1 "\tA 1".data,
   c10_parse_never_fails.1 "A 1\n \tB 2".data,
   c10_parse_never_fails.2 [' ', '\t'] (by decide)⟩

theorem splitInclusiveNl_no_nl : ∀ (b : List Char), '\n' ∉ b → b ≠ [] →
    splitInclusiveNl b = [b]
  | [], _, hne => absurd rfl hne
  | c :: rest, h, _ => by
    have hc : ¬c = '\n' := fun hc => h (hc ▸ List.mem_cons_self c rest)
    have hr : '\n' ∉ rest := fun hr => h (List.mem_cons_of_mem c hr)
    by_cases hrest : rest = []
    · subst hrest
      simp [splitInclusiveNl, hc]
    · simp [splitInclusiveNl, hc, splitInclusiveNl_no_nl rest hr hrest]

theorem splitInclusiveNl_append : ∀ (a b : List Char), '\n' ∉ a →
    splitInclusiveNl (a ++ '\n' :: b) = (a ++ ['\n']) :: splitInclusiveNl b
  | [], b, _ => by simp [splitInclusiveNl]
  | c :: a', b, h => by
    have hc : ¬c = '\n' := fun hc => h (hc ▸ List.mem_cons_self c a')
    have ha : '\n' ∉ a' := fun ha => h (List.mem_cons_of_mem c ha)
    simp [splitInclusiveNl, hc, splitInclusiveNl_append a' b ha]

theorem stripLineEnd_append_nl (a : List Char) (h : '\r' ∉ a) :
    stripLineEnd (a ++ ['\n']) = a := by
  unfold stripLineEnd
  rw [List.reverse_append]
  cases hrev : a.reverse with
  | nil =>
    simp at hrev
    simp [hrev]
  | cons c rest =>
    have hc : ¬c = '\r' := by
      intro hc
      exact h (by
        have : c ∈ a.reverse := hrev ▸ List.mem_cons_self c rest
        exact hc ▸ List.mem_reverse.1 this)
    simp only [List.reverse_singleton, List.singleton_append]
    split
    · rename_i rest1 heq
      rw [List.cons.injEq, List.cons.injEq] at heq
      exact absurd heq.2.1 hc
    · rename_i rest1 heq
      rw [List.cons.injEq] at heq
      rw [← heq.2, ← hrev, List.reverse_reverse]
    · rename_i hne1 hne2
      exact absurd rfl (hne2 (c :: rest))

theorem stripLineEnd_no_nl (b : List Char) (h : '\n' ∉ b) :
    stripLineEnd b = b := by
  unfold stripLineEnd
  cases hrev : b.reverse with
  | nil => rfl
  | cons c rest =>
    have hc : ¬c = '\n' := by
      intro hc
      exact h (by
        have : c ∈ b.reverse := hrev ▸ List.mem_cons_self c rest
        exact hc ▸ List.mem_reverse.1 this)
    simp [hc]

theorem linesOf_two (a b : List Char) (hna : '\n' ∉ a) (hra : '\r' ∉ a)
    (hnb : '\n' ∉ b) (hbne : b ≠ []) :
    linesOf (a ++ '\n' :: b) = [a, b] := by
  unfold linesOf
  rw [splitInclusiveNl_append a b hna, splitInclusiveNl_no_nl b hnb hbne]
  simp [stripLineEnd_append_nl a hra, stripLineEnd_no_nl b hnb]

namespace Old

theorem stripIndent_nonindent (c : Char) (rest : List Char) (h1 : c ≠ '\t')
    (h2 : c ≠ ' ') : stripIndent (c :: rest) = (0, c :: rest) := by
  rw [stripIndent.eq_def]
  split
  · rename_i heq
    rw [List.cons.injEq] at heq
    exact absurd heq.1 h1
  · rename_i heq
    rw [List.cons.injEq] at heq
    exact absurd heq.1 h2
  · rfl

theorem splitOnPred_clean (p : Char → Bool) : ∀ (b : List Char),
    (∀ c ∈ b, p c = false) → splitOnPred p b = [b]
  | [], _ => rfl
  | c :: rest, h => by
    have hc : p c = false := h c (List.mem_cons_self c rest)
    have ih := splitOnPred_clean p rest (fun y hy => h y (List.mem_cons_of_mem c hy))
    simp [splitOnPred, hc, ih]

theorem splitOnPred_sep (p : Char → Bool) (sep : Char) : ∀ (a : List Char)
    (b : List Char), (∀ c ∈ a, p c = false) → p sep = true →
    splitOnPred p (a ++ sep :: b) = a :: splitOnPred p b
  | [], b, _, hsep => by simp [splitOnPred, hsep]
  | c :: a', b, h, hsep => by
    have hc : p c = false := h c (List.mem_cons_self c a')
    have ih := splitOnPred_sep p sep a' b
      (fun y hy => h y (List.mem_cons_of_mem c hy)) hsep
    simp [splitOnPred, hc, ih]

theorem parse_keyval (k q : List Char) (hk : k ≠ [])
    (hkw : ∀ c ∈ k, isRustWs c = false) (hq : ∀ c ∈ q, isRustWs c = false) :
    ConfSection.parse (k ++ ' ' :: q) = some (.mk k (.Text q) 0 []) := by
  cases k with
  | nil => exact absurd rfl hk
  | cons c k' =>
    have hcw : isRustWs c = false := hkw c (List.mem_cons_self c k')
    have hct : c ≠ '\t' := fun h => by subst h; simp [isRustWs] at hcw
    have hcs : c ≠ ' ' := fun h => by subst h; simp [isRustWs] at hcw
    have hsplit : splitOnPred isRustWs ((c :: k') ++ ' ' :: q) =
        (c :: k') :: splitOnPred isRustWs q :=
      splitOnPred_sep isRustWs ' ' (c :: k') q hkw (by decide)
    have hq' : splitOnPred isRustWs q = [q] := splitOnPred_clean isRustWs q hq
    simp only [List.cons_append] at hsplit
    simp [ConfSection.parse, hcw, stripIndent_nonindent c (k' ++ ' ' :: q) hct hcs,
      hsplit, hq', ConfItem.parse]

end Old

/-- Claim C9: duplicate keys at the same level are legal and preserved:
for any whitespace-free key `k` and values `q1`, `q2`, parsing
`"<k> <q1>\n<k> <q2>"` with the old revision yields two distinct
top-level sections both keyed `k` in insertion order, and
`get_sections_by_name` retrieves them in that order; the closed third
part checks that children of one parent are also kept in insertion
order (`"A 1\n\tB 2\n\tC 3"` keeps `B` before `C`). -/
theorem c9_duplicate_keys (k q1 q2 : List Char) (hk : k ≠ [])
    (hkw : ∀ c ∈ k, isRustWs c = false) (hq1 : ∀ c ∈ q1, isRustWs c = false)
    (hq2 : ∀ c ∈ q2, isRustWs c = false) :
    Old.Confindent.from_str ((k ++ ' ' :: q1) ++ '\n' :: (k ++ ' ' :: q2)) =
      .ok ⟨[.mk k (.Text q1) 0 [], .mk k (.Text q2) 0 []]⟩ ∧
    Old.Confindent.get_sections_by_name
        ⟨[.mk k (.Text q1) 0 [], .mk k (.Text q2) 0 []]⟩ k =
      some [.mk k (.Text q1) 0 [], .mk k (.Text q2) 0 []] ∧
    Old.Confindent.from_str "A 1\n\tB 2\n\tC 3".data =
      .ok ⟨[.mk ['A'] (.Text ['1']) 0
        [.mk ['B'] (.Text ['2']) 1 [], .mk ['C'] (.Text ['3']) 1 []]]⟩ := by
  have notmem : ∀ (x : Char), isRustWs x = true → x ≠ ' ' →
      ∀ (q : List Char), (∀ c ∈ q, isRustWs c = false) → x ∉ k ++ ' ' :: q := by
    intro x hx hxs q hq hmem
    rcases List.mem_append.1 hmem with hin | hin
    · rw [hkw x hin] at hx
      exact Bool.false_ne_true hx
    · rcases List.mem_cons.1 hin with heq | hin
      · exact hxs heq
      · rw [hq x hin] at hx
        exact Bool.false_ne_true hx
  have hlines : linesOf ((k ++ ' ' :: q1) ++ '\n' :: (k ++ ' ' :: q2)) =
      [k ++ ' ' :: q1, k ++ ' ' :: q2] := by
    refine linesOf_two _ _ ?_ ?_ ?_ ?_
    · exact notmem '\n' (by decide) (by decide) q1 hq1
    · exact notmem '\r' (by decide) (by decide) q1 hq1
    · exact notmem '\n' (by decide) (by decide) q2 hq2
    · intro h
      exact List.cons_ne_nil ' ' q2 (List.append_eq_nil.1 h).2
  have hp1 : Old.ConfSection.parse (k ++ ' ' :: q1) = some (.mk k (.Text q1) 0 []) :=
    Old.parse_keyval k q1 hk hkw hq1
  have hp2 : Old.ConfSection.parse (k ++ ' ' :: q2) = some (.mk k (.Text q2) 0 []) :=
    Old.parse_keyval k q2 hk hkw hq2
  have hne : ((k ++ ' ' :: q1) ++ '\n' :: (k ++ ' ' :: q2)).dropWhile isRustWs ≠ [] := by
    cases k with
    | nil => exact absurd rfl hk
    | cons c k' =>
      have hcw : isRustWs c = false := hkw c (List.mem_cons_self c k')
      simp [List.dropWhile, hcw]
  have hcond1 : ((k ++ ' ' :: q1) ++ '\n' :: (k ++ ' ' :: q2)).isEmpty = false := by
    cases k with
    | nil => exact absurd rfl hk
    | cons c k' => rfl
  have hcond2 :
      (((k ++ ' ' :: q1) ++ '\n' :: (k ++ ' ' :: q2)).dropWhile isRustWs).isEmpty = false := by
    cases hdw : ((k ++ ' ' :: q1) ++ '\n' :: (k ++ ' ' :: q2)).dropWhile isRustWs with
    | nil => exact absurd hdw hne
    | cons c rest => rfl
  refine ⟨?_, ?_, rfl⟩
  · unfold Old.Confindent.from_str
    rw [hcond1, hcond2, hlines]
    simp [List.foldl, hp1, hp2, Old.Confindent.add_section, Old.ConfSection.levelOf]
  · simp [Old.Confindent.get_sections_by_name, Old.ConfSection.keyOf, List.filter]

/-- Witness for C9 at the concrete input `"A 1\nA 2"`. -/
theorem c9_witness :
    Old.Confindent.from_str "A 1\nA 2".data =
      .ok ⟨[.mk ['A'] (.Text ['1']) 0 [], .mk ['A'] (.Text ['2']) 0 []]⟩ ∧
    Old.Confindent.get_sections_by_name
        ⟨[.mk ['A'] (.Text ['1']) 0 [], .mk ['A'] (.Text ['2']) 0 []]⟩ ['A'] =
      some [.mk ['A'] (.Text ['1']) 0 [], .mk ['A'] (.Text ['2']) 0 []] := by
  have h := c9_duplicate_keys ['A'] ['1'] ['2'] (by decide) (by decide) (by decide)
    (by decide)
  exact ⟨h.1, h.2.1⟩

theorem parseLines_trivia : ∀ (pre : List (List Char)) (n : Nat) (doc : Lines)
    (rest : List (List Char)), (∀ p ∈ pre, blankOrCommentTok p) →
    ∃ doc', Confindent.parseLines n ⟨doc, []⟩ (pre ++ rest) =
      Confindent.parseLines (n + pre.length) ⟨doc', []⟩ rest
  | [], n, doc, rest, _ => ⟨doc, by simp⟩
  | p :: ps, n, doc, rest, h => by
    have hsub : ∀ y ∈ ps, blankOrCommentTok y :=
      fun y hy => h y (List.mem_cons_of_mem p hy)
    have harith : n + 1 + ps.length = n + (ps.length + 1) := by omega
    rcases h p (List.mem_cons_self p ps) with ⟨t, ht⟩ | ⟨ind, c, hc⟩
    · rcases parseLines_trivia ps (n + 1) (doc.push (.blank t)) rest hsub with ⟨doc', hd⟩
      refine ⟨doc', ?_⟩
      rw [List.cons_append]
      simp only [Confindent.parseLines, ht, pushTrivia]
      rw [hd, List.length_cons, harith]
    · rcases parseLines_trivia ps (n + 1) (doc.push (.comment ind c)) rest hsub with ⟨doc', hd⟩
      refine ⟨doc', ?_⟩
      rw [List.cons_append]
      simp only [Confindent.parseLines, hc, pushTrivia]
      rw [hd, List.length_cons, harith]

/-- Claim C4, counterexample to the universal statement: the input
`" \tA 1"` has a first content-bearing line with non-empty indentation,
yet parsing fails with `MixedIndent` at line 1, not `StartedIndented` —
the mixed indentation run is rejected by the tokenizer first. -/
theorem c4_counterexample :
    Confindent.from_str " \tA 1".data = .err ⟨1, .MixedIndent⟩ ∧
    ParseErrorKind.MixedIndent ≠ ParseErrorKind.StartedIndented :=
  ⟨rfl, by decide⟩

/-- Claim C4 (amended): for every document whose first content-bearing
(non-blank, non-comment) line tokenizes to a node with a non-empty
indentation token (a uniform run of tabs or of spaces), parsing fails
with `StartedIndented` reporting the 1-based number of that line; in
particular `"\tA 1"` fails with `StartedIndented` at line 1. -/
theorem c4_amended (S : List Char) (pre post : List (List Char)) (l : List Char)
    (hsplit : linesOf S = pre ++ l :: post)
    (htrivia : ∀ p ∈ pre, blankOrCommentTok p)
    (ind : Indent) (key : List Char) (val : Option (List Char)) (cs : Lines)
    (htok : tokenizeLine l = .ok (.node (.mk ind key val cs)))
    (hind : ind ≠ .Empty) :
    Confindent.from_str S = .err ⟨pre.length + 1, .StartedIndented⟩ := by
  unfold Confindent.from_str
  rw [hsplit]
  rcases parseLines_trivia pre 1 .nil (l :: post) htrivia with ⟨doc', hd⟩
  rw [hd]
  have hatt : attachNode ⟨doc', []⟩ (.mk ind key val cs) = .error .StartedIndented := by
    unfold attachNode
    rw [if_neg (by simpa [Value.indentOf] using hind)]
  simp only [Confindent.parseLines, htok, hatt]
  rw [Nat.add_comm 1 pre.length]

theorem Lines.render_append : ∀ (xs ys : Lines),
    (xs.append ys).render = xs.render ++ ys.render
  | .nil, ys => by simp [Lines.append, Lines.render]
  | .cons l rest, ys => by
    simp [Lines.append, Lines.render, Lines.render_append rest ys]

theorem Lines.render_push (xs : Lines) (l : Line) :
    (xs.push l).render = xs.render ++ l.render := by
  simp [Lines.push, Lines.render_append, Lines.render]

theorem value_line_render (f : Frame) :
    Line.render (.value f.toValue) = f.headerOf ++ f.children.render := by
  cases f
  simp [Frame.toValue, Line.render, Value.render, Frame.headerOf]

theorem ofValue_spine (v : Value) (s : List Frame) :
    spineRender (Frame.ofValue v :: s) =
      spineRender s ++ Line.render (.value v) := by
  cases v
  simp [spineRender, Frame.ofValue, Frame.headerOf, Line.render, Value.render]

theorem ofValue_header_children (v : Value) :
    (Frame.ofValue v).headerOf ++ (Frame.ofValue v).children.render =
      Line.render (.value v) := by
  cases v
  simp [Frame.ofValue, Frame.headerOf, Line.render, Value.render]

theorem closeHead_render (doc : Lines) (f : Frame) (rest : List Frame) :
    ((closeHead doc f rest).1).render ++ spineRender (closeHead doc f rest).2 =
      doc.render ++ spineRender (f :: rest) := by
  cases rest with
  | nil =>
    simp [closeHead, Lines.render_push, value_line_render, spineRender]
  | cons g gs =>
    simp [closeHead, spineRender, Lines.render_push, value_line_render,
      Frame.headerOf]

theorem closeN_render : ∀ (n : Nat) (doc : Lines) (stack : List Frame),
    ((closeN n doc stack).1).render ++ spineRender (closeN n doc stack).2 =
      doc.render ++ spineRender stack
  | 0, doc, stack => rfl
  | _ + 1, doc, [] => by simp [closeN, spineRender]
  | n + 1, doc, f :: rest => by
    have ih := closeN_render n (closeHead doc f rest).1 (closeHead doc f rest).2
    calc ((closeN (n + 1) doc (f :: rest)).1).render ++
          spineRender (closeN (n + 1) doc (f :: rest)).2
        = ((closeN n (closeHead doc f rest).1 (closeHead doc f rest).2).1).render ++
          spineRender (closeN n (closeHead doc f rest).1 (closeHead doc f rest).2).2 := rfl
      _ = ((closeHead doc f rest).1).render ++ spineRender (closeHead doc f rest).2 := ih
      _ = doc.render ++ spineRender (f :: rest) := closeHead_render doc f rest

theorem closeN_stack_nil : ∀ (n : Nat) (doc : Lines) (stack : List Frame),
    stack.length = n → (closeN n doc stack).2 = []
  | 0, doc, stack, h => by
    rw [List.length_eq_zero.1 h]
    rfl
  | n + 1, doc, [], h => by simp at h
  | n + 1, doc, f :: rest, h => by
    have hlen : (closeHead doc f rest).2.length = n := by
      cases rest with
      | nil =>
        simp [closeHead]
        simp at h
        omega
      | cons g gs =>
        simp [closeHead]
        simp at h
        omega
    exact closeN_stack_nil n (closeHead doc f rest).1 (closeHead doc f rest).2 hlen

theorem closeAll_render (doc : Lines) (stack : List Frame) :
    ((closeN stack.length doc stack).1).render = doc.render ++ spineRender stack := by
  have h := closeN_render stack.length doc stack
  rw [closeN_stack_nil stack.length doc stack rfl] at h
  simpa [spineRender] using h

theorem pushTrivia_render (st : PState) (l : Line) :
    stateRender (pushTrivia st l) = stateRender st ++ Line.render l := by
  cases st with
  | mk doc stack =>
    cases stack with
    | nil => simp [pushTrivia, stateRender, spineRender, Lines.render_push]
    | cons f rest =>
      simp [pushTrivia, stateRender, spineRender, Lines.render_push,
        Frame.headerOf]

theorem attachNode_render (st : PState) (v : Value) (st' : PState)
    (h : attachNode st v = .ok st') :
    stateRender st' = stateRender st ++ Line.render (.value v) := by
  cases st with
  | mk doc stack =>
    unfold attachNode at h
    by_cases hind : v.indentOf = .Empty
    · rw [if_pos hind] at h
      injection h with h
      rw [← h]
      simp only [stateRender, spineRender]
      rw [closeAll_render]
      simp [ofValue_header_children]
    · rw [if_neg hind] at h
      cases stack with
      | nil => simp at h
      | cons f rest =>
        dsimp only at h
        cases hfa : findAttach (f :: rest) v.indentOf with
        | error e =>
          rw [hfa] at h
          simp at h
        | ok n =>
          rw [hfa] at h
          injection h with h
          rw [← h]
          simp only [stateRender, ofValue_spine]
          rw [← List.append_assoc, closeN_render n doc (f :: rest)]

theorem parseLines_render : ∀ (ls : List (List Char)) (n : Nat) (st : PState)
    (d : Confindent), (∀ l ∈ ls, lineRoundtrips l = true) →
    Confindent.parseLines n st ls = .ok d →
    d.children.render = stateRender st ++ linesJoin ls
  | [], _, st, d, _, h => by
    simp only [Confindent.parseLines] at h
    injection h with h
    rw [← h]
    simp [linesJoin, closeAll_render, stateRender]
  | l :: ls, n, st, d, hrt, h => by
    have hl := hrt l (List.mem_cons_self l ls)
    have hrest : ∀ y ∈ ls, lineRoundtrips y = true :=
      fun y hy => hrt y (List.mem_cons_of_mem l hy)
    unfold lineRoundtrips at hl
    cases htok : tokenizeLine l with
    | panicked =>
      rw [htok] at hl
      simp at hl
    | err e =>
      rw [htok] at hl
      simp at hl
    | ok t =>
      rw [htok] at hl
      simp only [decide_eq_true_eq] at hl
      simp only [Confindent.parseLines, htok] at h
      cases t with
      | blank tb =>
        have ih := parseLines_render ls (n + 1) (pushTrivia st (.blank tb)) d hrest h
        rw [ih, pushTrivia_render]
        have hr : Line.render (.blank tb) = l ++ ['\n'] := by
          simpa [tokRender, Line.render] using hl
        rw [hr]
        simp [linesJoin]
      | comment ind c =>
        have ih := parseLines_render ls (n + 1) (pushTrivia st (.comment ind c)) d hrest h
        rw [ih, pushTrivia_render]
        have hr : Line.render (.comment ind c) = l ++ ['\n'] := by
          simpa [tokRender, Line.render] using hl
        rw [hr]
        simp [linesJoin]
      | node v =>
        dsimp only at h
        cases hatt : attachNode st v with
        | error e =>
          rw [hatt] at h
          simp at h
        | ok st1 =>
          rw [hatt] at h
          have ih := parseLines_render ls (n + 1) st1 d hrest h
          rw [ih, attachNode_render st v st1 hatt]
          have hr : Line.render (.value v) = l ++ ['\n'] := by
            simpa [tokRender, Line.render] using hl
          rw [hr]
          simp [linesJoin]

/-- Claim C1 (amended): for every text `S` that equals its lines each
re-terminated with `'\n'` (so `S` ends in a newline and uses LF line
endings) and in which every line individually re-serializes to itself
(ruling out a line whose remainder carries exactly one trailing space
after the key, whose lost space the serializer cannot reproduce), if `S`
parses successfully then serializing the resulting document yields
exactly `S` byte-for-byte — indentation characters, comments and blank
lines reappear in their original positions. -/
theorem c1_roundtrip (S : List Char) (hjoin : linesJoin (linesOf S) = S)
    (hlines : ∀ l ∈ linesOf S, lineRoundtrips l = true) (d : Confindent)
    (hok : Confindent.from_str S = .ok d) :
    Confindent.render d = S := by
  unfold Confindent.from_str at hok
  have h := parseLines_render (linesOf S) 1 ⟨.nil, []⟩ d hlines hok
  rw [Confindent.render, h, hjoin]
  simp [stateRender, spineRender, Lines.render]

/-- Claim C1, counterexample to the unamended statement: `"A \n"` ends
with a trailing newline and parses successfully, but the single trailing
space after the key is recorded as no value at all, and serialization
yields `"A\n"`, which differs from the input. -/
theorem c1_counterexample :
    Confindent.from_str "A \n".data =
      .ok ⟨.cons (.value (.mk .Empty ['A'] none .nil)) .nil⟩ ∧
    Confindent.render ⟨.cons (.value (.mk .Empty ['A'] none .nil)) .nil⟩ =
      "A\n".data ∧
    "A\n".data ≠ "A \n".data :=
  ⟨rfl, rfl, by decide⟩

/-- Witness for C1 on a document with a key/value node, an indented
comment, a blank line and a second top-level node. -/
theorem c1_witness :
    Confindent.from_str "A 1\n\t# c\n\nB\n".data =
      .ok ⟨.cons (.value (.mk .Empty ['A'] (some ['1'])
          (.cons (.comment (.Tabs 1 1) [' ', 'c']) (.cons (.blank []) .nil))))
        (.cons (.value (.mk .Empty ['B'] none .nil)) .nil)⟩ ∧
    Confindent.render
        ⟨.cons (.value (.mk .Empty ['A'] (some ['1'])
          (.cons (.comment (.Tabs 1 1) [' ', 'c']) (.cons (.blank []) .nil))))
        (.cons (.value (.mk .Empty ['B'] none .nil)) .nil)⟩ =
      "A 1\n\t# c\n\nB\n".data :=
  ⟨rfl, c1_roundtrip "A 1\n\t# c\n\nB\n".data (by decide) (by decide) _ rfl⟩

/-- Witness for C4 at the input `"\tA 1"`. -/
theorem c4_witness :
    Confindent.from_str "\tA 1".data = .err ⟨1, .StartedIndented⟩ :=
  c4_amended "\tA 1".data [] [] ['\t', 'A', ' ', '1'] rfl
    (fun p hp => absurd hp (List.not_mem_nil p))
    (.Tabs 1 1) ['A'] (some ['1']) .nil rfl (by decide)

/-- Claim C2: parsing `"A 1\n\tB 2\n\t\tC 3"` produces a single
top-level node `A` with value `1`, whose sole child is `B` with value
`2` at one indentation level, whose sole child is `C` with value `3` at
two indentation levels — the doubly indented line attaches under the
most recent one-level node, not at top level. -/
theorem c2_depth_correctness :
    Confindent.from_str "A 1\n\tB 2\n\t\tC 3".data =
      .ok ⟨.cons (.value (.mk .Empty ['A'] (some ['1'])
        (.cons (.value (.mk (.Tabs 1 1) ['B'] (some ['2'])
          (.cons (.value (.mk (.Tabs 2 2) ['C'] (some ['3']) .nil)) .nil))) .nil))) .nil⟩ :=
  rfl
